import Mathlib

namespace Osui

/-!
Verification development for the osui terminal UI library.

The definitions below are a shallow embedding of the Rust sources:

* src/utils.rs   — compress_string, merge_line, render_to_frame,
                   closest_component, Direction;
* src/lib.rs     — Value (Default / Custom cells);
* src/ui.rs      — Style, Color, Font, and the button component
                   (update / tick / render state machine).

Strings are modelled at the character level (List Char); the Rust code
indexes strings by byte, which coincides with the character level on the
ASCII/ANSI data the library manipulates.  The Rust regex
(\x1b\[([0-9;]*)[a-zA-Z])+  is modelled by an explicit parser: a single
escape sequence is ESC '[' followed by parameter characters [0-9;] and a
final letter; a run is a maximal sequence of adjacent escape sequences.
HashMap<usize, String> is modelled as an association list with
first-match lookup; the keys recorded by compress_string are pairwise
distinct, so the two agree.
-/

/-- The ESC character 0x1b that starts every ANSI escape sequence. -/
def escChar : Char := Char.ofNat 27

/-- Characters allowed in the parameter part of an escape sequence: [0-9;]. -/
def isParamChar (c : Char) : Bool :=
  (('0' ≤ c) && (c ≤ '9')) || (c == ';')

/-- Final characters of an escape sequence: [a-zA-Z]. -/
def isFinalChar (c : Char) : Bool :=
  (('a' ≤ c) && (c ≤ 'z')) || (('A' ≤ c) && (c ≤ 'Z'))

/-- Length of the parameter-and-final part of an escape sequence at the head
of the list: greedily consume [0-9;] characters, then require one [a-zA-Z]. -/
def pfLen : List Char → Option Nat
  | [] => none
  | c :: cs =>
    if isParamChar c then (pfLen cs).map (· + 1)
    else if isFinalChar c then some 1 else none

/-- Length of a single complete ANSI escape sequence at the head of the list
(ESC, then a bracket, then parameters and a final letter), if present. -/
def escSeqLen (l : List Char) : Option Nat :=
  match l with
  | e :: b :: rest =>
    if e = escChar ∧ b = '[' then (pfLen rest).map (· + 2) else none
  | _ => none

/-- Fuel-indexed length of the maximal run of adjacent escape sequences at the
head of the list.  Any fuel of at least the list length gives the true
answer (the run of the regex modelled with the + repetition). -/
def escRunF : Nat → List Char → Option Nat
  | 0, _ => none
  | fuel + 1, l =>
    match escSeqLen l with
    | none => none
    | some n => some (n + (escRunF fuel (l.drop n)).getD 0)

/-- Length of the maximal run of adjacent escape sequences at the head. -/
def escRun (l : List Char) : Option Nat := escRunF l.length l

/-- Shift every key of an escape map by one (one visible character was
prepended to the compressed output). -/
def shiftMap (m : List (Nat × List Char)) : List (Nat × List Char) :=
  m.map (fun p => (p.1 + 1, p.2))

/-- Fuel-indexed body of compress_string from src/utils.rs: walk the input;
a maximal escape run at the current position is recorded in the map, keyed by
the number of visible characters already produced; any other character is
appended to the visible output. -/
def compressAux : Nat → List Char → List Char × List (Nat × List Char)
  | 0, _ => ([], [])
  | _ + 1, [] => ([], [])
  | fuel + 1, c :: cs =>
    match escRun (c :: cs) with
    | some n =>
      let r := compressAux fuel ((c :: cs).drop n)
      (r.1, (0, (c :: cs).take n) :: r.2)
    | none =>
      let r := compressAux fuel cs
      (c :: r.1, shiftMap r.2)

/-- compress_string from src/utils.rs: strip ANSI escape runs, returning the
visible characters together with a map from visible-character index to the
escape run recorded immediately before that index. -/
def compress_string (l : List Char) : List Char × List (Nat × List Char) :=
  compressAux l.length l

/-- First-match lookup in an escape map (the HashMap get of the source; the
maps produced by compress_string have pairwise distinct keys). -/
def lookupM : List (Nat × List Char) → Nat → Option (List Char)
  | [], _ => none
  | (k, v) :: m, j => if k = j then some v else lookupM m j

/-- One reconstructed cell: the escape run anchored at index i (if any)
followed by the visible character at index i. -/
def cellF (res : List Char) (m : List (Nat × List Char)) (i : Nat) : List Char :=
  ((lookupM m i).getD []) ++ [res.getD i ' ']

/-- Replay a compressed string: each recorded escape run is reinserted just
before its recorded visible-character offset, and a run recorded at the
position one past the last visible character is appended at the end. -/
def decompress (res : List Char) (m : List (Nat × List Char)) : List Char :=
  ((List.range res.length).map (cellF res m)).flatten ++ (lookupM m res.length).getD []

/-! Basic facts about the escape-sequence parser. -/

/-! Step equations for compress_string. -/

/-! Lookup lemmas for the escape maps. -/

/-! Decompression lemmas. -/

/-! Interleavings of escape sequences and visible characters, as a token
grammar.  A token is either a visible character (anything but ESC) or one
complete ANSI escape sequence. -/

inductive Tok : Type
  | vis (c : Char) : Tok
  | seq (ps : List Char) (f : Char) : Tok
deriving DecidableEq

/-- The character string a token denotes. -/
def Tok.render : Tok → List Char
  | Tok.vis c => [c]
  | Tok.seq ps f => escChar :: '[' :: (ps ++ [f])

/-- The character string a token list denotes. -/
def renderToks (ts : List Tok) : List Char := (ts.map Tok.render).flatten

/-- The visible characters of a token list, in order. -/
def visChars : List Tok → List Char
  | [] => []
  | Tok.vis c :: ts => c :: visChars ts
  | Tok.seq _ _ :: ts => visChars ts

/-- Well-formed tokens: visible characters are not ESC, escape sequences have
parameter characters [0-9;] and a final letter. -/
def wfTok : Tok → Bool
  | Tok.vis c => c ≠ escChar
  | Tok.seq ps f => ps.all isParamChar && isFinalChar f

/-! merge_line from src/utils.rs. -/

/-- The overlay used by the merge loop: the compressed overlay string, with a
line-break placeholder appended when the overlay map records an escape run at
the position one past the last visible character (the trailing-escape check
at the top of merge_line). -/
def line_with_break (cl : List Char × List (Nat × List Char)) : List Char :=
  if (lookupM cl.2 cl.1.length).isSome then cl.1 ++ ['\n'] else cl.1

/-- One iteration of the merge loop as a (recorded escape run, emitted
character) pair: inside the overlay region a non-transparent overlay cell
emits the overlay escape at that offset and the overlay character (or the
frame character where the overlay holds the line-break placeholder); every
other position emits the frame escape at that position and the frame
character. -/
def mergeCellP (resF : List Char) (fm : List (Nat × List Char)) (lineC : List Char)
    (lm : List (Nat × List Char)) (x i : Nat) : Option (List Char) × Char :=
  if x ≤ i ∧ i - x < lineC.length ∧ lineC.getD (i - x) ' ' ≠ '\t' then
    (lookupM lm (i - x),
      if lineC.getD (i - x) ' ' = '\n' then resF.getD i ' ' else lineC.getD (i - x) ' ')
  else
    (lookupM fm i, resF.getD i ' ')

/-- The characters a merge cell contributes to the output. -/
def cellRender (p : Option (List Char) × Char) : List Char :=
  (p.1.getD []) ++ [p.2]

/-- merge_line from src/utils.rs: compress both lines, append the line-break
placeholder to the overlay if it carries a trailing escape, then walk the
frame's visible positions emitting one cell each. -/
def merge_line (frame line : List Char) (x : Nat) : List Char :=
  ((List.range (compress_string frame).1.length).map (fun i =>
    cellRender (mergeCellP (compress_string frame).1 (compress_string frame).2
      (line_with_break (compress_string line)) (compress_string line).2 x i))).flatten

/-- Number of visible characters of a string (its compressed length). -/
def visibleLen (l : List Char) : Nat := (compress_string l).1.length

/-- Width of the overlay region of merge_line: the overlay's visible length,
plus one for the line-break placeholder if a trailing escape is recorded. -/
def overlayLen (line : List Char) : Nat := (line_with_break (compress_string line)).length

/-- The reconstruction of a frame line from visible position k onward:
each cell is the frame's recorded escape run followed by its character. -/
def frameCellsFrom (frame : List Char) (k : Nat) : List Char :=
  ((List.range' k (visibleLen frame - k)).map
    (cellF (compress_string frame).1 (compress_string frame).2)).flatten

/-! render_to_frame from src/utils.rs. -/

/-- Split a character list at every line break, like str::split with a
newline pattern (empty segments are kept; the empty string yields one empty
segment). -/
def splitNl : List Char → List (List Char)
  | [] => [[]]
  | c :: cs =>
    if c = '\n' then [] :: splitNl cs
    else
      match splitNl cs with
      | [] => [[c]]
      | s :: rest => (c :: s) :: rest

/-- The data render_to_frame reads from a widget: its position from get_data
and its rendered output as a function of the render state. -/
structure RElement where
  x : Nat
  y : Nat
  render : Nat → List Char

/-- The loop of render_to_frame: the line with index i targets row y + i;
rows inside the frame are replaced by the merge of the existing row with the
line at offset x, rows at or beyond the frame's row count are skipped. -/
def rtfAux (x y : Nat) : Nat → List (List Char) → List (List Char) → List (List Char)
  | _, frame, [] => frame
  | i, frame, line :: rest =>
    rtfAux x y (i + 1)
      (if y + i < frame.length
        then frame.set (y + i) (merge_line (frame.getD (y + i) []) line x)
        else frame)
      rest

/-- render_to_frame from src/utils.rs: split the widget's rendered output on
line breaks and merge each line into its target row. -/
def render_to_frame (state : Nat) (frame : List (List Char)) (element : RElement) :
    List (List Char) :=
  rtfAux element.x element.y 0 frame (splitNl (element.render state))

/-! Value cells from src/lib.rs. -/

/-- Value enum from src/lib.rs: a cell holding either a default or an
explicitly assigned (custom) value. -/
inductive Value (T : Type) : Type
  | Default : T → Value T
  | Custom : T → Value T

/-- get_value from src/lib.rs. -/
def Value.get_value {T : Type} : Value T → T
  | Value.Custom s => s
  | Value.Default s => s

/-- try_set_value from src/lib.rs: when the cell is Default the new value is
stored (and the cell is rebuilt as Default); a Custom cell is left untouched. -/
def Value.try_set_value {T : Type} : Value T → T → Value T
  | Value.Default _, v => Value.Default v
  | Value.Custom s, _ => Value.Custom s

/-- Whether a cell carries an explicitly assigned value. -/
def Value.isCustom {T : Type} : Value T → Bool
  | Value.Custom _ => true
  | Value.Default _ => false

/-! closest_component from src/utils.rs. -/

/-- Direction enum from src/utils.rs. -/
inductive Direction : Type
  | Left
  | Right
  | Up
  | Down

/-- The position data closest_component reads from a sibling's get_data. -/
structure CompData : Type where
  x : Nat
  y : Nat
deriving DecidableEq

/-- usize::abs_diff. -/
def abs_diff (a b : Nat) : Nat := if a ≤ b then b - a else a - b

/-- The candidate filter of closest_component: strictly beyond the current
widget on the requested axis and exactly aligned on the perpendicular axis. -/
def dirPred (direction : Direction) (cur comp : CompData) : Bool :=
  match direction with
  | Direction.Left => decide (comp.x < cur.x) && (comp.y == cur.y)
  | Direction.Right => decide (comp.x > cur.x) && (comp.y == cur.y)
  | Direction.Up => decide (comp.y < cur.y) && (comp.x == cur.x)
  | Direction.Down => decide (comp.y > cur.y) && (comp.x == cur.x)

/-- The Manhattan distance used by the min_by_key call. -/
def manhattan (cur comp : CompData) : Nat :=
  abs_diff cur.x comp.x + abs_diff cur.y comp.y

/-- Iterator::min_by_key: the first element with minimal key (ties keep the
earlier element). -/
def minByKeyFirst {α : Type} (key : α → Nat) : List α → Option α
  | [] => none
  | a :: l => some (l.foldl (fun acc b => if key b < key acc then b else acc) a)

/-- closest_component from src/utils.rs: enumerate the siblings, keep those
satisfying the directional filter, take the one with minimal Manhattan
distance, and fall back to the current index when no candidate exists. -/
def closest_component (components : List CompData) (current_index : Nat)
    (direction : Direction) : Nat :=
  match minByKeyFirst
      (fun p => manhattan (components.getD current_index ⟨0, 0⟩) p.2)
      ((components.enum).filter
        (fun p => dirPred direction (components.getD current_index ⟨0, 0⟩) p.2)) with
  | some p => p.1
  | none => current_index

/-- A sibling index j is a candidate for the move. -/
def isCandidate (components : List CompData) (cur : CompData) (direction : Direction)
    (j : Nat) : Prop :=
  j < components.length ∧ dirPred direction cur (components.getD j ⟨0, 0⟩) = true

/-! The style engine from src/ui.rs. -/

/-- The ANSI reset sequence appended after every written payload. -/
def resetSeq : String := "\x1b[0m"

/-- Color enum from src/ui.rs. -/
inductive Color : Type
  | None
  | Rgb (r g b : Nat)
  | Black
  | Red
  | Green
  | Yellow
  | Blue
  | Magenta
  | Cyan
  | White
deriving DecidableEq

/-- Foreground ANSI sequence of a color; an absent color contributes the
empty string. -/
def Color.ansi : Color → String
  | Color.None => ""
  | Color.Rgb r g b =>
    "\x1b[38;2;" ++ toString r ++ ";" ++ toString g ++ ";" ++ toString b ++ "m"
  | Color.Black => "\x1b[30m"
  | Color.Red => "\x1b[31m"
  | Color.Green => "\x1b[32m"
  | Color.Yellow => "\x1b[33m"
  | Color.Blue => "\x1b[34m"
  | Color.Magenta => "\x1b[35m"
  | Color.Cyan => "\x1b[36m"
  | Color.White => "\x1b[37m"

/-- Background ANSI sequence of a color. -/
def Color.ansi_bg : Color → String
  | Color.None => ""
  | Color.Rgb r g b =>
    "\x1b[48;2;" ++ toString r ++ ";" ++ toString g ++ ";" ++ toString b ++ "m"
  | Color.Black => "\x1b[40m"
  | Color.Red => "\x1b[41m"
  | Color.Green => "\x1b[42m"
  | Color.Yellow => "\x1b[43m"
  | Color.Blue => "\x1b[44m"
  | Color.Magenta => "\x1b[45m"
  | Color.Cyan => "\x1b[46m"
  | Color.White => "\x1b[47m"

/-- prioritize from src/ui.rs: the secondary (state layer) color wins unless
it is unset. -/
def Color.prioritize (c secondary : Color) : Color :=
  if secondary = Color.None then c else secondary

/-- Font enum from src/ui.rs. -/
inductive Font : Type
  | None
  | Bold
  | Underline
  | Italic
  | Reverse
  | Strike
  | Mul (v : List Font)

/-- Whether a font is the unset font (the PartialEq comparison with None used
by prioritize). -/
def Font.isNone : Font → Bool
  | Font.None => true
  | _ => false

mutual
/-- ANSI sequence of a font decorator; Mul concatenates its members. -/
def Font.ansi : Font → String
  | Font.None => ""
  | Font.Bold => "\x1b[1m"
  | Font.Underline => "\x1b[4m"
  | Font.Italic => "\x1b[3m"
  | Font.Reverse => "\x1b[7m"
  | Font.Strike => "\x1b[9m"
  | Font.Mul v => Font.ansiList v

/-- Concatenation of the sequences of a list of fonts. -/
def Font.ansiList : List Font → String
  | [] => ""
  | f :: fs => Font.ansi f ++ Font.ansiList fs
end

/-- prioritize from src/ui.rs for fonts. -/
def Font.prioritize (f secondary : Font) : Font :=
  if secondary.isNone then f else secondary

/-- Style record from src/ui.rs. -/
structure Style : Type where
  bg : Color
  fg : Color
  outline : Color
  font : Font
  hover_bg : Color
  hover_fg : Color
  hover_outline : Color
  hover_font : Font
  hover_cursor_fg : Color
  hover_cursor_bg : Color
  clicked_bg : Color
  clicked_fg : Color
  clicked_outline : Color
  clicked_font : Font
  selected_bg : Color
  selected_fg : Color
  selected_font : Font
  cursor_fg : Color
  cursor_bg : Color
  is_active : Bool

/-- Default::default for Style: everything unset, inactive. -/
def default_style : Style :=
  { bg := Color.None, fg := Color.None, outline := Color.None, font := Font.None
    hover_bg := Color.None, hover_fg := Color.None, hover_outline := Color.None
    hover_font := Font.None, hover_cursor_fg := Color.None, hover_cursor_bg := Color.None
    clicked_bg := Color.None, clicked_fg := Color.None, clicked_outline := Color.None
    clicked_font := Font.None, selected_bg := Color.None, selected_fg := Color.None
    selected_font := Font.None, cursor_fg := Color.None, cursor_bg := Color.None
    is_active := false }

/-- Style::get from src/ui.rs. -/
def Style.get (s : Style) : String :=
  if s.is_active then
    (s.fg.prioritize s.hover_fg).ansi ++ (s.bg.prioritize s.hover_bg).ansi_bg ++
      (s.font.prioritize s.hover_font).ansi
  else
    s.fg.ansi ++ s.bg.ansi_bg ++ s.font.ansi

/-- Style::get_outline from src/ui.rs. -/
def Style.get_outline (s : Style) : String :=
  if s.is_active then (s.outline.prioritize s.hover_outline).ansi else s.outline.ansi

/-- Style::get_clicked from src/ui.rs. -/
def Style.get_clicked (s : Style) : String :=
  (s.fg.prioritize s.clicked_fg).ansi ++ (s.bg.prioritize s.clicked_bg).ansi_bg ++
    (s.font.prioritize s.clicked_font).ansi

/-- Style::get_selected from src/ui.rs. -/
def Style.get_selected (s : Style) : String :=
  (s.fg.prioritize s.selected_fg).ansi ++ (s.bg.prioritize s.selected_bg).ansi_bg ++
    (s.font.prioritize s.selected_font).ansi

/-- Style::get_cursor from src/ui.rs. -/
def Style.get_cursor (s : Style) : String :=
  if s.is_active then
    (s.cursor_fg.prioritize s.hover_cursor_fg).ansi ++
      (s.cursor_bg.prioritize s.hover_cursor_bg).ansi_bg
  else
    s.cursor_fg.ansi ++ s.cursor_bg.ansi_bg

/-- Style::write from src/ui.rs: attribute prefix, payload, reset. -/
def Style.write (s : Style) (t : String) : String := s.get ++ t ++ resetSeq

/-- Style::write_outline from src/ui.rs. -/
def Style.write_outline (s : Style) (t : String) : String := s.get_outline ++ t ++ resetSeq

/-- Style::write_clicked from src/ui.rs. -/
def Style.write_clicked (s : Style) (t : String) : String := s.get_clicked ++ t ++ resetSeq

/-- Style::write_selected from src/ui.rs. -/
def Style.write_selected (s : Style) (t : String) : String := s.get_selected ++ t ++ resetSeq

/-- Style::write_cursor from src/ui.rs. -/
def Style.write_cursor (s : Style) (t : String) : String := s.get_cursor ++ t ++ resetSeq

/-- Modelled from the spec: a field family resolves to the state layer when it
is explicitly set (not None) and to the base value otherwise. -/
def resolveColor (base layer : Color) : Color :=
  if layer = Color.None then base else layer

/-- Modelled from the spec: font resolution between a base and a state layer. -/
def resolveFont (base layer : Font) : Font :=
  if layer.isNone then base else layer

/-- A hovered style overriding only the foreground color. -/
def exampleStyle : Style :=
  { default_style with hover_fg := Color.Red, is_active := true }

/-! The button component from src/ui.rs. -/

/-- Modelled from the spec: the key kinds of the key module (the module
itself is not under src/; only the kinds used by the components matter). -/
inductive KeyKind : Type
  | Enter
  | Tab
  | ShiftTab
  | Up
  | Down
  | Left
  | Right
deriving DecidableEq

/-- A key event as consumed by Component::update. -/
structure Key : Type where
  kind : KeyKind

/-- Modelled from the spec: the update response returned by a component
update, either nothing or a scheduled tick sequence (the declaring module is
not under src/; only None and Tick are used by the button). -/
inductive UpdateResponse : Type
  | None
  | Tick (v : List Nat)
deriving DecidableEq

/-- Binding-table lookup (HashMap get on the binds field). -/
def lookupBind : List (KeyKind × String) → KeyKind → Option String
  | [], _ => none
  | (k, v) :: bs, kk => if k = kk then some v else lookupBind bs kk

/-- The key bindings installed by the button constructor in src/ui.rs. -/
def button_binds : List (KeyKind × String) := [(KeyKind.Enter, "click")]

/-- The state of a button component: the fields of Component read and written
by the button's update, tick and render functions, with the user callback
abstracted as an invocation counter. -/
structure BtnComponent : Type where
  clicked : Bool
  toggle : Bool
  callCount : Nat
  binds : List (KeyKind × String)
  style : Style
  expr : String

/-- The button update function from src/ui.rs: on the bound click key, a
toggle button flips its clicked flag and invokes the callback at once, a
non-toggle button schedules the tick sequence [1, 100] and changes nothing. -/
def button_update (this : BtnComponent) (k : Key) : BtnComponent × UpdateResponse :=
  match lookupBind this.binds k.kind with
  | some v =>
    if v = "click" then
      if this.toggle then
        ({ this with clicked := !this.clicked, callCount := this.callCount + 1 },
          UpdateResponse.None)
      else
        (this, UpdateResponse.Tick [1, 100])
    else
      (this, UpdateResponse.None)
  | none => (this, UpdateResponse.None)

/-- The button tick function from src/ui.rs: tick index 0 enters the clicked
state and invokes the callback, tick index 1 reverts to idle and invokes the
callback again, any other index does nothing. -/
def button_tick (this : BtnComponent) (i : Nat) : BtnComponent :=
  if i = 0 then { this with clicked := true, callCount := this.callCount + 1 }
  else if i = 1 then { this with clicked := false, callCount := this.callCount + 1 }
  else this

/-- The button render function from src/ui.rs. -/
def button_render (this : BtnComponent) : String :=
  if this.clicked then this.style.write_clicked this.expr else this.style.write this.expr

/-- An idle non-toggle button with the constructor bindings. -/
def exampleButton : BtnComponent :=
  { clicked := false, toggle := false, callCount := 0, binds := button_binds,
    style := default_style, expr := "OK" }

/-! Visible-geometry invariants: merged output recompresses to one visible
character per frame cell, provided no stray ESC appears among the visible
characters of either input. -/

/-- A complete well-formed ANSI escape sequence. -/
def ValidSeq (s : List Char) : Prop :=
  ∃ ps f, s = (Tok.seq ps f).render ∧ ps.all isParamChar = true ∧ isFinalChar f = true

/-- A nonempty concatenation of complete escape sequences (the shape of every
run recorded by compress_string). -/
def ValidRun (r : List Char) : Prop :=
  ∃ ss : List (List Char), ss ≠ [] ∧ r = ss.flatten ∧ ∀ s ∈ ss, ValidSeq s

lemma pfLen_bounds {l : List Char} {k : Nat} (h : pfLen l = some k) :
    1 ≤ k ∧ k ≤ l.length := by
  induction l generalizing k with
  | nil => simp [pfLen] at h
  | cons c cs ih =>
    simp only [pfLen] at h
    by_cases hp : isParamChar c
    · simp only [hp, if_true, Option.map_eq_some'] at h
      obtain ⟨k0, hk0, rfl⟩ := h
      obtain ⟨h1, h2⟩ := ih hk0
      simp only [List.length_cons]
      omega
    · by_cases hf : isFinalChar c
      · simp [hp, hf] at h
        simp only [List.length_cons]
        omega
      · simp [hp, hf] at h

lemma escSeqLen_bounds {l : List Char} {n : Nat} (h : escSeqLen l = some n) :
    3 ≤ n ∧ n ≤ l.length := by
  match l with
  | [] => simp [escSeqLen] at h
  | [c] => simp [escSeqLen] at h
  | e :: b :: rest =>
    simp only [escSeqLen] at h
    by_cases he : e = escChar ∧ b = '['
    · simp [he] at h
      obtain ⟨k, hk, rfl⟩ := h
      have := pfLen_bounds hk
      constructor <;> simp <;> omega
    · simp [he] at h

lemma escSeqLen_nil : escSeqLen [] = none := rfl

lemma escRunF_nil (f : Nat) : escRunF f [] = none := by
  cases f <;> simp [escRunF, escSeqLen]

lemma escRunF_fuel {f₁ f₂ : Nat} : ∀ {l : List Char},
    l.length ≤ f₁ → l.length ≤ f₂ → escRunF f₁ l = escRunF f₂ l := by
  induction f₁ generalizing f₂ with
  | zero =>
    intro l h1 _
    have : l = [] := List.length_eq_zero.mp (Nat.le_zero.mp h1)
    subst this
    rw [escRunF_nil, escRunF_nil]
  | succ f ih =>
    intro l h1 h2
    cases hseq : escSeqLen l with
    | none =>
      cases f₂ with
      | zero =>
        have : l = [] := List.length_eq_zero.mp (Nat.le_zero.mp h2)
        subst this
        rw [escRunF_nil, escRunF_nil]
      | succ g => simp [escRunF, hseq]
    | some n =>
      have hb := escSeqLen_bounds hseq
      cases f₂ with
      | zero => omega
      | succ g =>
        simp only [escRunF, hseq]
        have hd : (l.drop n).length ≤ f := by simp; omega
        have hd2 : (l.drop n).length ≤ g := by simp; omega
        rw [ih hd hd2]

lemma escRun_eq (l : List Char) :
    escRun l = match escSeqLen l with
      | none => none
      | some n => some (n + (escRun (l.drop n)).getD 0) := by
  cases hseq : escSeqLen l with
  | none =>
    cases l with
    | nil => simp [escRun, escRunF_nil]
    | cons c cs => simp [escRun, escRunF, hseq]
  | some n =>
    have hb := escSeqLen_bounds hseq
    cases hl : l with
    | nil => subst hl; simp [escSeqLen] at hseq
    | cons c cs =>
      subst hl
      simp only [escRun, List.length_cons, escRunF, hseq]
      have : ((c :: cs).drop n).length ≤ cs.length := by simp; omega
      rw [escRunF_fuel this (Nat.le_refl _)]

lemma escRun_eq_none {l : List Char} (h : escSeqLen l = none) : escRun l = none := by
  rw [escRun_eq, h]

lemma escRun_eq_some {l : List Char} {n : Nat} (h : escSeqLen l = some n) :
    escRun l = some (n + (escRun (l.drop n)).getD 0) := by
  rw [escRun_eq, h]

lemma escRun_nil : escRun [] = none := escRun_eq_none rfl

lemma escRun_bounds {l : List Char} {n : Nat} (h : escRun l = some n) :
    3 ≤ n ∧ n ≤ l.length := by
  suffices H : ∀ f l, l.length ≤ f → ∀ n, escRun l = some n → 3 ≤ n ∧ n ≤ l.length by
    exact H l.length l (Nat.le_refl _) n h
  intro f
  induction f with
  | zero =>
    intro l hl n h
    have : l = [] := List.length_eq_zero.mp (Nat.le_zero.mp hl)
    subst this
    rw [escRun_nil] at h
    exact absurd h (by simp)
  | succ g ih =>
    intro l hl n h
    rw [escRun_eq l] at h
    cases hseq : escSeqLen l with
    | none => simp [hseq] at h
    | some m =>
      have hb := escSeqLen_bounds hseq
      simp only [hseq] at h
      cases hrest : escRun (l.drop m) with
      | none =>
        simp [hrest] at h
        omega
      | some r =>
        have hd : (l.drop m).length ≤ g := by simp; omega
        have := ih (l.drop m) hd r hrest
        simp [hrest] at h
        simp at this
        omega

/-- After the maximal escape run, no further escape sequence starts. -/
lemma escRun_maximal {l : List Char} {n : Nat} (h : escRun l = some n) :
    escSeqLen (l.drop n) = none := by
  suffices H : ∀ f l, l.length ≤ f → ∀ n, escRun l = some n → escSeqLen (l.drop n) = none by
    exact H l.length l (Nat.le_refl _) n h
  intro f
  induction f with
  | zero =>
    intro l hl n h
    have : l = [] := List.length_eq_zero.mp (Nat.le_zero.mp hl)
    subst this
    rw [escRun_nil] at h
    exact absurd h (by simp)
  | succ g ih =>
    intro l hl n h
    rw [escRun_eq l] at h
    cases hseq : escSeqLen l with
    | none => simp [hseq] at h
    | some m =>
      have hb := escSeqLen_bounds hseq
      simp only [hseq, Option.some.injEq] at h
      cases hrest : escRun (l.drop m) with
      | none =>
        simp [hrest] at h
        subst h
        cases hafter : escSeqLen (l.drop m) with
        | none => rfl
        | some r =>
          rw [escRun_eq (l.drop m), hafter] at hrest
          simp at hrest
      | some r =>
        have hd : (l.drop m).length ≤ g := by simp; omega
        have hmax := ih (l.drop m) hd r hrest
        rw [List.drop_drop] at hmax
        simp [hrest] at h
        rw [show n = m + r by omega]
        exact hmax

lemma compressAux_fuel {f₁ f₂ : Nat} : ∀ {l : List Char},
    l.length ≤ f₁ → l.length ≤ f₂ → compressAux f₁ l = compressAux f₂ l := by
  induction f₁ generalizing f₂ with
  | zero =>
    intro l h1 _
    have : l = [] := List.length_eq_zero.mp (Nat.le_zero.mp h1)
    subst this
    cases f₂ <;> simp [compressAux]
  | succ f ih =>
    intro l h1 h2
    cases l with
    | nil => cases f₂ <;> simp [compressAux]
    | cons c cs =>
      cases f₂ with
      | zero => simp at h2
      | succ g =>
        cases hrun : escRun (c :: cs) with
        | none =>
          have hcs : cs.length ≤ f := by simp at h1; omega
          have hcs2 : cs.length ≤ g := by simp at h2; omega
          simp only [compressAux, hrun]
          rw [ih hcs hcs2]
        | some n =>
          have hb := escRun_bounds hrun
          have hd : ((c :: cs).drop n).length ≤ f := by simp at h1 ⊢; omega
          have hd2 : ((c :: cs).drop n).length ≤ g := by simp at h2 ⊢; omega
          simp only [compressAux, hrun]
          rw [ih hd hd2]

lemma compress_nil : compress_string [] = ([], []) := rfl

lemma compress_esc {l : List Char} {n : Nat} (h : escRun l = some n) :
    compress_string l =
      ((compress_string (l.drop n)).1, (0, l.take n) :: (compress_string (l.drop n)).2) := by
  have hb := escRun_bounds h
  cases l with
  | nil => rw [escRun_nil] at h; simp at h
  | cons c cs =>
    simp only [compress_string, List.length_cons, compressAux, h]
    have : ((c :: cs).drop n).length ≤ cs.length := by simp; omega
    rw [compressAux_fuel this (Nat.le_refl _)]

lemma compress_vis {c : Char} {cs : List Char} (h : escRun (c :: cs) = none) :
    compress_string (c :: cs) =
      (c :: (compress_string cs).1, shiftMap (compress_string cs).2) := by
  simp only [compress_string, List.length_cons, compressAux, h]

lemma lookupM_shift_zero (m : List (Nat × List Char)) :
    lookupM (shiftMap m) 0 = none := by
  induction m with
  | nil => rfl
  | cons p m ih => simp [shiftMap, lookupM] at ih ⊢; exact ih

lemma lookupM_shift_succ (m : List (Nat × List Char)) (j : Nat) :
    lookupM (shiftMap m) (j + 1) = lookupM m j := by
  induction m with
  | nil => rfl
  | cons p m ih =>
    simp only [shiftMap, List.map_cons, lookupM] at ih ⊢
    by_cases hk : p.1 = j
    · simp [hk]
    · have : ¬(p.1 + 1 = j + 1) := by omega
      simp [hk, this]
      exact ih

/-- The map produced by compressing a list that does not start with an escape
sequence has no entry at key 0. -/
lemma lookupM_compress_zero {l : List Char} (h : escSeqLen l = none) :
    lookupM (compress_string l).2 0 = none := by
  cases l with
  | nil => rfl
  | cons c cs =>
    have hrun : escRun (c :: cs) = none := escRun_eq_none h
    rw [compress_vis hrun]
    exact lookupM_shift_zero _

/-- Compressing a nonempty list that does not start with an escape sequence
yields at least one visible character. -/
lemma compress_fst_ne_nil {l : List Char} (h : escSeqLen l = none) (hne : l ≠ []) :
    (compress_string l).1 ≠ [] := by
  cases l with
  | nil => exact absurd rfl hne
  | cons c cs =>
    have hrun : escRun (c :: cs) = none := escRun_eq_none h
    rw [compress_vis hrun]
    simp

lemma decompress_shift (c : Char) (res : List Char) (m : List (Nat × List Char)) :
    decompress (c :: res) (shiftMap m) = c :: decompress res m := by
  simp only [decompress, List.length_cons, List.range_succ_eq_map, List.map_cons,
    List.map_map, List.flatten_cons]
  have h0 : cellF (c :: res) (shiftMap m) 0 = [c] := by
    simp [cellF, lookupM_shift_zero]
  have hsucc : cellF (c :: res) (shiftMap m) ∘ Nat.succ = cellF res m := by
    funext j
    simp [cellF, lookupM_shift_succ]
  rw [h0, hsucc, lookupM_shift_succ]
  simp

lemma decompress_cons_zero {m : List (Nat × List Char)} (hm : lookupM m 0 = none)
    (t : List Char) (res : List Char) :
    decompress res ((0, t) :: m) = t ++ decompress res m := by
  cases res with
  | nil => simp [decompress, lookupM, hm]
  | cons d res =>
    simp only [decompress, List.length_cons, List.range_succ_eq_map, List.map_cons,
      List.map_map, List.flatten_cons]
    have h0 : cellF (d :: res) ((0, t) :: m) 0 = t ++ [d] := by
      simp [cellF, lookupM]
    have h0r : cellF (d :: res) m 0 = [d] := by
      simp [cellF, hm]
    have hsucc : cellF (d :: res) ((0, t) :: m) ∘ Nat.succ = cellF (d :: res) m ∘ Nat.succ := by
      funext j
      simp [cellF, lookupM]
    rw [h0, h0r, hsucc]
    have htrail : lookupM ((0, t) :: m) (res.length + 1) = lookupM m (res.length + 1) := by
      simp [lookupM]
    rw [htrail]
    simp

/-- Round trip: compressing any string and replaying every recorded escape run
just before its recorded visible-character offset reproduces the string. -/
lemma compress_decompress (l : List Char) :
    decompress (compress_string l).1 (compress_string l).2 = l := by
  suffices H : ∀ f l, List.length l ≤ f →
      decompress (compress_string l).1 (compress_string l).2 = l by
    exact H l.length l (Nat.le_refl _)
  intro f
  induction f with
  | zero =>
    intro l hl
    have : l = [] := List.length_eq_zero.mp (Nat.le_zero.mp hl)
    subst this
    rfl
  | succ g ih =>
    intro l hl
    cases l with
    | nil => rfl
    | cons c cs =>
      cases hrun : escRun (c :: cs) with
      | none =>
        rw [compress_vis hrun]
        rw [decompress_shift]
        rw [ih cs (by simp at hl; omega)]
      | some n =>
        have hb := escRun_bounds hrun
        have hmax := escRun_maximal hrun
        rw [compress_esc hrun]
        rw [decompress_cons_zero (lookupM_compress_zero hmax)]
        rw [ih ((c :: cs).drop n) (by simp at hl ⊢; omega)]
        exact List.take_append_drop n (c :: cs)

lemma char_le_toNat {a b : Char} (h : a ≤ b) : a.val.toNat ≤ b.val.toNat :=
  Char.le_def.mp h

lemma param_not_final {c : Char} (h : isFinalChar c = true) : isParamChar c = false := by
  have ea : ('a' : Char).val.toNat = 97 := by decide
  have ez : ('z' : Char).val.toNat = 122 := by decide
  have eA : ('A' : Char).val.toNat = 65 := by decide
  have eZ : ('Z' : Char).val.toNat = 90 := by decide
  have e9 : ('9' : Char).val.toNat = 57 := by decide
  have esemi : (';' : Char).val.toNat = 59 := by decide
  simp only [isFinalChar, Bool.or_eq_true, Bool.and_eq_true, decide_eq_true_eq] at h
  have hv : 97 ≤ c.val.toNat ∧ c.val.toNat ≤ 122 ∨ 65 ≤ c.val.toNat ∧ c.val.toNat ≤ 90 := by
    rcases h with ⟨h1, h2⟩ | ⟨h1, h2⟩
    · left
      have a1 := char_le_toNat h1
      have a2 := char_le_toNat h2
      rw [ea] at a1
      rw [ez] at a2
      exact ⟨a1, a2⟩
    · right
      have a1 := char_le_toNat h1
      have a2 := char_le_toNat h2
      rw [eA] at a1
      rw [eZ] at a2
      exact ⟨a1, a2⟩
  simp only [isParamChar, Bool.or_eq_false_iff, Bool.and_eq_false_iff,
    decide_eq_false_iff_not, beq_eq_false_iff_ne, ne_eq]
  constructor
  · by_cases h0 : ('0' : Char) ≤ c
    · right
      intro h9v
      have a2 := char_le_toNat h9v
      rw [e9] at a2
      omega
    · left
      exact h0
  · intro hc
    subst hc
    rw [esemi] at hv
    omega

lemma pfLen_valid {ps : List Char} {f : Char} (hps : ps.all isParamChar = true)
    (hf : isFinalChar f = true) (t : List Char) :
    pfLen (ps ++ f :: t) = some (ps.length + 1) := by
  induction ps with
  | nil =>
    simp only [List.nil_append, pfLen]
    rw [param_not_final hf]
    simp [hf]
  | cons p ps ih =>
    simp only [List.all_cons, Bool.and_eq_true] at hps
    simp only [List.cons_append, pfLen]
    rw [if_pos hps.1]
    simp only [List.append_eq] at *
    rw [ih hps.2]
    simp only [Option.map_some', Option.some.injEq, List.length_cons]

lemma tok_render_length {ps : List Char} {f : Char} :
    (Tok.seq ps f).render.length = ps.length + 3 := by
  simp [Tok.render]

/-- A well-formed escape-sequence token parses as a complete escape sequence,
whatever follows it. -/
lemma escSeqLen_tok {ps : List Char} {f : Char} (hps : ps.all isParamChar = true)
    (hf : isFinalChar f = true) (t : List Char) :
    escSeqLen ((Tok.seq ps f).render ++ t) = some (ps.length + 3) := by
  have hshape : (Tok.seq ps f).render ++ t = escChar :: '[' :: (ps ++ f :: t) := by
    simp [Tok.render]
  rw [hshape]
  simp [escSeqLen, pfLen_valid hps hf]

/-- The escape run at the head of a sequence token followed by anything is the
token itself together with the run at the head of the remainder. -/
lemma escRun_tok {ps : List Char} {f : Char} (hps : ps.all isParamChar = true)
    (hf : isFinalChar f = true) (t : List Char) :
    escRun ((Tok.seq ps f).render ++ t) = some ((ps.length + 3) + (escRun t).getD 0) := by
  have hd : ((Tok.seq ps f).render ++ t).drop (ps.length + 3) = t := by
    have hlen : ps.length + 3 = (Tok.seq ps f).render.length + 0 := by
      rw [tok_render_length]
    rw [hlen, List.drop_append 0, List.drop_zero]
  rw [escRun_eq_some (escSeqLen_tok hps hf t), hd]

lemma escSeqLen_vis_head {c : Char} (hc : c ≠ escChar) (t : List Char) :
    escSeqLen (c :: t) = none := by
  cases t with
  | nil => rfl
  | cons b rest =>
    simp only [escSeqLen]
    rw [if_neg]
    intro hcontra
    exact hc hcontra.1

/-- The visible characters produced by compress_string on a well-formed token
interleaving are exactly the visible-character tokens in order. -/
lemma compress_fst_tokens : ∀ ts : List Tok, (∀ t ∈ ts, wfTok t = true) →
    (compress_string (renderToks ts)).1 = visChars ts := by
  intro ts
  induction ts with
  | nil => intro _; rfl
  | cons t ts ih =>
    intro hwf
    have hts : ∀ t ∈ ts, wfTok t = true := fun t ht => hwf t (List.mem_cons_of_mem _ ht)
    have hhd : wfTok t = true := hwf t (List.mem_cons_self _ _)
    cases t with
    | vis c =>
      simp only [wfTok, ne_eq, decide_eq_true_eq] at hhd
      have hrender : renderToks (Tok.vis c :: ts) = c :: renderToks ts := by
        simp [renderToks, Tok.render]
      rw [hrender]
      have hrun : escRun (c :: renderToks ts) = none := escRun_eq_none (escSeqLen_vis_head hhd _)
      rw [compress_vis hrun, ih hts]
      rfl
    | seq ps f =>
      simp only [wfTok, Bool.and_eq_true] at hhd
      have hrender : renderToks (Tok.seq ps f :: ts) = (Tok.seq ps f).render ++ renderToks ts := by
        simp [renderToks]
      rw [hrender]
      have hrun := escRun_tok hhd.1 hhd.2 (renderToks ts)
      rw [compress_esc hrun]
      have hdrop : ((Tok.seq ps f).render ++ renderToks ts).drop
          ((ps.length + 3) + (escRun (renderToks ts)).getD 0) =
          (renderToks ts).drop ((escRun (renderToks ts)).getD 0) := by
        rw [show (ps.length + 3) + (escRun (renderToks ts)).getD 0 =
          (Tok.seq ps f).render.length + (escRun (renderToks ts)).getD 0 by
            rw [tok_render_length]]
        rw [List.drop_append]
      rw [hdrop]
      have hfst : (compress_string ((renderToks ts).drop ((escRun (renderToks ts)).getD 0))).1 =
          (compress_string (renderToks ts)).1 := by
        cases hrts : escRun (renderToks ts) with
        | none => simp
        | some k =>
          rw [compress_esc hrts]
          simp [hrts]
      rw [hfst, ih hts]
      rfl

lemma range'_append_one (s m n : Nat) :
    List.range' s m ++ List.range' (s + m) n = List.range' s (m + n) := by
  have h := List.range'_append s m n 1
  rw [Nat.one_mul] at h
  rw [Nat.add_comm n m] at h
  exact h

lemma cellRender_frame (resF : List Char) (fm : List (Nat × List Char)) (i : Nat) :
    cellRender (lookupM fm i, resF.getD i ' ') = cellF resF fm i := rfl

/-- When no escape run is recorded at the end of the frame, replaying all of
the frame's cells reproduces the frame exactly. -/
lemma cells_eq_self {frame : List Char}
    (h : lookupM (compress_string frame).2 (visibleLen frame) = none) :
    ((List.range (visibleLen frame)).map
      (cellF (compress_string frame).1 (compress_string frame).2)).flatten = frame := by
  have hrt := compress_decompress frame
  unfold decompress at hrt
  unfold visibleLen at h ⊢
  rw [h] at hrt
  simpa using hrt

lemma frameCellsFrom_zero {frame : List Char}
    (h : lookupM (compress_string frame).2 (visibleLen frame) = none) :
    frameCellsFrom frame 0 = frame := by
  unfold frameCellsFrom
  rw [Nat.sub_zero, ← List.range_eq_range']
  exact cells_eq_self h

/-- If every merge cell falls outside the overlay region, merging reproduces
the frame's own cells. -/
lemma merge_line_all_frame {frame line : List Char} {x : Nat}
    (hout : ∀ i, i < visibleLen frame →
      ¬(x ≤ i ∧ i - x < (line_with_break (compress_string line)).length ∧
        (line_with_break (compress_string line)).getD (i - x) ' ' ≠ '\t')) :
    merge_line frame line x = ((List.range (visibleLen frame)).map
      (cellF (compress_string frame).1 (compress_string frame).2)).flatten := by
  unfold merge_line
  apply congrArg List.flatten
  apply List.map_eq_map_iff.mpr
  intro i hi
  rw [List.mem_range] at hi
  rw [mergeCellP, if_neg (hout i hi)]
  rfl

lemma getD_append_length (l : List Char) (a d : Char) :
    (l ++ [a]).getD l.length d = a := by
  simp [List.getD]

/-- Merging the transparent marker overlay keeps every frame cell. -/
lemma merge_transparent_cells (frame : List Char) (x : Nat) :
    merge_line frame ['\t', '\t', '\t'] x = ((List.range (visibleLen frame)).map
      (cellF (compress_string frame).1 (compress_string frame).2)).flatten := by
  apply merge_line_all_frame
  intro i _
  rintro ⟨_, h2, h3⟩
  have hcl : compress_string ['\t', '\t', '\t'] = (['\t', '\t', '\t'], []) := rfl
  rw [hcl] at h2 h3
  have hlb : line_with_break ((['\t', '\t', '\t'], []) : List Char × List (Nat × List Char)) =
      ['\t', '\t', '\t'] := rfl
  rw [hlb] at h2 h3
  apply h3
  simp only [List.length_cons, List.length_nil] at h2
  match hk : i - x, h2 with
  | 0, _ => rfl
  | 1, _ => rfl
  | 2, _ => rfl
  | k + 3, h => omega

/-- Beyond the overlay region, a merge cell is the frame cell. -/
lemma merge_line_split (frame line : List Char) (x k : Nat)
    (hk : k ≤ visibleLen frame)
    (hbeyond : ∀ i, k ≤ i → i < visibleLen frame →
      ¬(x ≤ i ∧ i - x < (line_with_break (compress_string line)).length ∧
        (line_with_break (compress_string line)).getD (i - x) ' ' ≠ '\t')) :
    merge_line frame line x =
      ((List.range k).map (fun i =>
        cellRender (mergeCellP (compress_string frame).1 (compress_string frame).2
          (line_with_break (compress_string line)) (compress_string line).2 x i))).flatten ++
      ((List.range' k (visibleLen frame - k)).map
        (cellF (compress_string frame).1 (compress_string frame).2)).flatten := by
  unfold merge_line
  have hr : List.range (compress_string frame).1.length =
      List.range k ++ List.range' k (visibleLen frame - k) := by
    rw [List.range_eq_range', List.range_eq_range']
    have hsplit := range'_append_one 0 k (visibleLen frame - k)
    rw [Nat.zero_add] at hsplit
    have hlen : (compress_string frame).1.length = k + (visibleLen frame - k) := by
      unfold visibleLen at hk ⊢
      omega
    rw [hlen, ← hsplit]
  rw [hr, List.map_append, List.flatten_append]
  congr 1
  apply congrArg List.flatten
  apply List.map_eq_map_iff.mpr
  intro i hi
  rw [List.mem_range'_1] at hi
  have h1 : k ≤ i := hi.1
  have h2 : i < visibleLen frame := by
    have h3 := hi.2
    omega
  rw [mergeCellP, if_neg (hbeyond i h1 h2)]
  rfl

lemma range_split (n k : Nat) (h : k ≤ n) :
    List.range n = List.range k ++ List.range' k (n - k) := by
  rw [List.range_eq_range', List.range_eq_range']
  have hsplit := range'_append_one 0 k (n - k)
  rw [Nat.zero_add] at hsplit
  nth_rewrite 1 [show n = k + (n - k) by omega]
  rw [← hsplit]

/-- C4 counterexample: on a frame ending in an escape run, merging the
transparent overlay drops that trailing run, so the frame is changed. -/
theorem c4_counterexample :
    merge_line ['A', escChar, '[', '0', 'm'] ['\t', '\t', '\t'] 0 = ['A'] ∧
    merge_line ['A', escChar, '[', '0', 'm'] ['\t', '\t', '\t'] 0 ≠
      ['A', escChar, '[', '0', 'm'] := by decide

/-- C4 (amended): merging an overlay consisting entirely of the transparent
marker returns the frame line unchanged, escapes included, provided the frame
records no escape run at the position one past its last visible character; a
trailing escape run is dropped by the merge loop. -/
theorem c4_merge_transparent_amended (frame : List Char) (x : Nat)
    (h : lookupM (compress_string frame).2 (visibleLen frame) = none) :
    merge_line frame ['\t', '\t', '\t'] x = frame := by
  rw [merge_transparent_cells]
  exact cells_eq_self h

/-- C4 witness: a concrete frame with an interior escape run is returned
unchanged by a transparent merge. -/
theorem c4_witness :
    lookupM (compress_string ['X', escChar, '[', '1', 'm', 'Y']).2
      (visibleLen ['X', escChar, '[', '1', 'm', 'Y']) = none ∧
    merge_line ['X', escChar, '[', '1', 'm', 'Y'] ['\t', '\t', '\t'] 1 =
      ['X', escChar, '[', '1', 'm', 'Y'] :=
  ⟨by decide, c4_merge_transparent_amended ['X', escChar, '[', '1', 'm', 'Y'] 1 (by decide)⟩

/-- C5 counterexample: an overlay placed entirely beyond the frame width still
drops the frame's trailing escape run, so the frame is not left unchanged. -/
theorem c5_counterexample :
    visibleLen ['A', escChar, '[', '0', 'm'] ≤ 5 ∧
    merge_line ['A', escChar, '[', '0', 'm'] ['B'] 5 ≠ ['A', escChar, '[', '0', 'm'] := by
  decide

/-- C5 (amended): for a frame with no trailing escape run, an overlay placed
at or beyond the frame's visible width leaves the frame unchanged; replaying
all frame cells reproduces the frame; and whenever the overlay region ends
inside the frame, every later cell is the frame's own escape run and
character. -/
theorem c5_merge_containment_amended (frame line : List Char) (x : Nat)
    (h : lookupM (compress_string frame).2 (visibleLen frame) = none) :
    (visibleLen frame ≤ x → merge_line frame line x = frame) ∧
    frameCellsFrom frame 0 = frame ∧
    (x + overlayLen line ≤ visibleLen frame →
      ∃ pre, merge_line frame line x = pre ++ frameCellsFrom frame (x + overlayLen line)) := by
  refine ⟨?_, frameCellsFrom_zero h, ?_⟩
  · intro hx
    have hall : ∀ i, i < visibleLen frame →
        ¬(x ≤ i ∧ i - x < (line_with_break (compress_string line)).length ∧
          (line_with_break (compress_string line)).getD (i - x) ' ' ≠ '\t') := by
      intro i hi hcon
      have h1 := hcon.1
      omega
    rw [merge_line_all_frame hall]
    exact cells_eq_self h
  · intro hxw
    have hbeyond : ∀ i, x + overlayLen line ≤ i → i < visibleLen frame →
        ¬(x ≤ i ∧ i - x < (line_with_break (compress_string line)).length ∧
          (line_with_break (compress_string line)).getD (i - x) ' ' ≠ '\t') := by
      intro i hge hlt hcon
      obtain ⟨hc1, hc2, hc3⟩ := hcon
      unfold overlayLen at hge
      omega
    refine ⟨((List.range (x + overlayLen line)).map (fun i =>
      cellRender (mergeCellP (compress_string frame).1 (compress_string frame).2
        (line_with_break (compress_string line)) (compress_string line).2 x i))).flatten, ?_⟩
    rw [merge_line_split frame line x (x + overlayLen line) hxw hbeyond]
    rfl

/-- C5 witness: concrete frame, overlay and offsets exercising both the
out-of-range branch and the trailing-cells branch. -/
theorem c5_witness :
    lookupM (compress_string ['X', 'Y', 'Z']).2 (visibleLen ['X', 'Y', 'Z']) = none ∧
    merge_line ['X', 'Y', 'Z'] ['B'] 7 = ['X', 'Y', 'Z'] ∧
    (∃ pre, merge_line ['X', 'Y', 'Z'] ['B'] 1 = pre ++ frameCellsFrom ['X', 'Y', 'Z'] 2) :=
  ⟨by decide, (c5_merge_containment_amended ['X', 'Y', 'Z'] ['B'] 7 (by decide)).1 (by decide),
    (c5_merge_containment_amended ['X', 'Y', 'Z'] ['B'] 1 (by decide)).2.2 (by decide)⟩

/-- C6: an escape run recorded at the position one past the overlay's last
visible character makes merge_line append the line-break placeholder, and
when that position lies inside the frame the trailing escape run is emitted
followed by the frame's own character at that position. -/
theorem c6_trailing_escape_preserved (frame line : List Char) (x : Nat) (e : List Char)
    (h1 : lookupM (compress_string line).2 (compress_string line).1.length = some e)
    (h2 : x + (compress_string line).1.length < visibleLen frame) :
    line_with_break (compress_string line) = (compress_string line).1 ++ ['\n'] ∧
    ∃ pre suf, merge_line frame line x =
      pre ++ e ++ ((compress_string frame).1.getD (x + (compress_string line).1.length) ' ') :: suf := by
  have hlb : line_with_break (compress_string line) = (compress_string line).1 ++ ['\n'] := by
    unfold line_with_break
    rw [h1]
    rfl
  refine ⟨hlb, ?_⟩
  unfold visibleLen at h2
  unfold merge_line
  set k := x + (compress_string line).1.length with hkdef
  rw [range_split (compress_string frame).1.length k (by omega)]
  have hr2 : List.range' k ((compress_string frame).1.length - k) =
      k :: List.range' (k + 1) ((compress_string frame).1.length - k - 1) := by
    have hsplit := range'_append_one k 1 ((compress_string frame).1.length - k - 1)
    rw [show 1 + ((compress_string frame).1.length - k - 1) =
      (compress_string frame).1.length - k by omega] at hsplit
    rw [← hsplit]
    rfl
  rw [hr2, List.map_append, List.flatten_append, List.map_cons, List.flatten_cons]
  have hkx : k - x = (compress_string line).1.length := by omega
  have hcell : cellRender (mergeCellP (compress_string frame).1 (compress_string frame).2
      (line_with_break (compress_string line)) (compress_string line).2 x k) =
      e ++ [(compress_string frame).1.getD k ' '] := by
    unfold mergeCellP
    rw [if_pos ?hcond]
    case hcond =>
      refine ⟨by omega, ?_, ?_⟩
      · rw [hkx, hlb]
        simp
      · rw [hkx, hlb, getD_append_length]
        decide
    rw [hkx, hlb, getD_append_length, if_pos rfl, h1]
    rfl
  rw [hcell, List.append_assoc e, List.singleton_append, ← List.append_assoc]
  exact ⟨_, _, rfl⟩

/-- C6 witness: a concrete overlay carrying a trailing escape run, merged at
an offset whose end lies inside the frame. -/
theorem c6_witness :
    lookupM (compress_string ['X', escChar, '[', '0', 'm']).2
      (compress_string ['X', escChar, '[', '0', 'm']).1.length =
      some [escChar, '[', '0', 'm'] ∧
    1 + (compress_string ['X', escChar, '[', '0', 'm']).1.length <
      visibleLen ['A', 'B', 'C'] ∧
    (line_with_break (compress_string ['X', escChar, '[', '0', 'm']) =
      (compress_string ['X', escChar, '[', '0', 'm']).1 ++ ['\n'] ∧
    ∃ pre suf, merge_line ['A', 'B', 'C'] ['X', escChar, '[', '0', 'm'] 1 =
      pre ++ [escChar, '[', '0', 'm'] ++
        ((compress_string ['A', 'B', 'C']).1.getD
          (1 + (compress_string ['X', escChar, '[', '0', 'm']).1.length) ' ') :: suf) :=
  ⟨by decide, by decide,
    c6_trailing_escape_preserved ['A', 'B', 'C'] ['X', escChar, '[', '0', 'm'] 1
      [escChar, '[', '0', 'm'] (by decide) (by decide)⟩

lemma getD_set_self {l : List (List Char)} {k : Nat} {v : List Char} (h : k < l.length) :
    (l.set k v).getD k [] = v := by
  rw [List.getD_eq_getElem?_getD, List.getElem?_set_self']
  simp [List.getElem?_eq_getElem h]

lemma getD_set_ne {l : List (List Char)} {k r : Nat} {v : List Char} (h : k ≠ r) :
    (l.set k v).getD r [] = l.getD r [] := by
  rw [List.getD_eq_getElem?_getD, List.getElem?_set_ne h, ← List.getD_eq_getElem?_getD]

lemma rtfAux_length (x y : Nat) : ∀ (lines : List (List Char)) (i : Nat)
    (frame : List (List Char)), (rtfAux x y i frame lines).length = frame.length := by
  intro lines
  induction lines with
  | nil => intro i frame; rfl
  | cons line rest ih =>
    intro i frame
    simp only [rtfAux]
    rw [ih]
    split
    · rw [List.length_set]
    · rfl

lemma rtfAux_getD (x y : Nat) : ∀ (lines : List (List Char)) (i : Nat)
    (frame : List (List Char)) (r : Nat), r < frame.length →
    (rtfAux x y i frame lines).getD r [] =
      if y + i ≤ r ∧ r - (y + i) < lines.length
      then merge_line (frame.getD r []) (lines.getD (r - (y + i)) []) x
      else frame.getD r [] := by
  intro lines
  induction lines with
  | nil =>
    intro i frame r hr
    simp only [rtfAux, List.length_nil]
    rw [if_neg]
    rintro ⟨_, h2⟩
    omega
  | cons line rest ih =>
    intro i frame r hr
    have hllen : (line :: rest).length = rest.length + 1 := rfl
    simp only [rtfAux]
    by_cases hrow : y + i < frame.length
    · rw [if_pos hrow]
      have hlen2 : r < (frame.set (y + i) (merge_line (frame.getD (y + i) []) line x)).length := by
        rw [List.length_set]
        exact hr
      rw [ih (i + 1) _ r hlen2]
      by_cases heq : r = y + i
      · rw [if_neg (by omega : ¬(y + (i + 1) ≤ r ∧ r - (y + (i + 1)) < rest.length))]
        rw [if_pos (by constructor <;> omega : y + i ≤ r ∧ r - (y + i) < (line :: rest).length)]
        rw [show r - (y + i) = 0 by omega]
        rw [heq, getD_set_self hrow]
        rfl
      · by_cases hge : y + i ≤ r
        · have hgt : y + (i + 1) ≤ r := by omega
          have hsub : r - (y + i) = (r - (y + (i + 1))) + 1 := by omega
          by_cases hin : r - (y + (i + 1)) < rest.length
          · rw [if_pos ⟨hgt, hin⟩, if_pos ⟨hge, by omega⟩]
            rw [getD_set_ne (by omega)]
            rw [hsub]
            rfl
          · rw [if_neg (by rintro ⟨_, hb⟩; omega), if_neg (by rintro ⟨_, hb⟩; omega)]
            exact getD_set_ne (by omega)
        · rw [if_neg (by rintro ⟨ha, _⟩; omega), if_neg (by rintro ⟨ha, _⟩; omega)]
          exact getD_set_ne (by omega)
    · rw [if_neg hrow]
      rw [ih (i + 1) frame r hr]
      rw [if_neg (by rintro ⟨ha, _⟩; omega), if_neg (by rintro ⟨ha, _⟩; omega)]

/-- C7: render_to_frame splits the rendered output on line breaks; each line
whose target row y + i lies inside the frame replaces that row with the merge
of the previous row contents and the line at offset x; rows at or beyond the
frame's row count are silently dropped, and the row count never changes. -/
theorem c7_render_to_frame_clipping (state : Nat) (frame : List (List Char))
    (element : RElement) :
    (render_to_frame state frame element).length = frame.length ∧
    ∀ r, r < frame.length →
      (render_to_frame state frame element).getD r [] =
        if element.y ≤ r ∧ r - element.y < (splitNl (element.render state)).length
        then merge_line (frame.getD r []) ((splitNl (element.render state)).getD (r - element.y) [])
          element.x
        else frame.getD r [] := by
  constructor
  · exact rtfAux_length element.x element.y (splitNl (element.render state)) 0 frame
  · intro r hr
    have h := rtfAux_getD element.x element.y (splitNl (element.render state)) 0 frame r hr
    rw [Nat.add_zero] at h
    exact h

/-- C7 witness: a two-row frame, a widget at (1, 1) rendering two lines; the
second line targets row 2 and is clipped, row 1 is merged. -/
theorem c7_witness :
    (render_to_frame 0 [[' ', ' '], [' ', ' ']]
      ⟨1, 1, fun _ => ['A', '\n', 'B']⟩).length = 2 ∧
    (render_to_frame 0 [[' ', ' '], [' ', ' ']]
      ⟨1, 1, fun _ => ['A', '\n', 'B']⟩).getD 1 [] = merge_line [' ', ' '] ['A'] 1 := by
  constructor
  · exact (c7_render_to_frame_clipping 0 [[' ', ' '], [' ', ' ']]
      ⟨1, 1, fun _ => ['A', '\n', 'B']⟩).1
  · have h := (c7_render_to_frame_clipping 0 [[' ', ' '], [' ', ' ']]
      ⟨1, 1, fun _ => ['A', '\n', 'B']⟩).2 1 (by decide)
    rw [if_pos (by decide)] at h
    exact h

/-- C2 counterexample: a try_set_value on a Default cell does not make the
cell Custom, and a second try_set_value is not a no-op — get_value returns
the second value, not the first. -/
theorem c2_counterexample :
    ((Value.Default 0 : Value Nat).try_set_value 1).isCustom = false ∧
    (((Value.Default 0 : Value Nat).try_set_value 1).try_set_value 2).get_value = 2 :=
  ⟨rfl, rfl⟩

/-- C2 (amended): try_set_value on a Default cell stores the new value but the
cell remains Default, so a later try_set_value overwrites it again and
get_value returns the most recently stored value; try_set_value on a Custom
cell is a no-op, and a Custom cell never changes state. -/
theorem c2_try_set_amended (T : Type) (v x y : T) :
    (Value.Default v : Value T).try_set_value x = Value.Default x ∧
    ((Value.Default v : Value T).try_set_value x).try_set_value y = Value.Default y ∧
    ((Value.Default v : Value T).try_set_value x).get_value = x ∧
    (Value.Custom v : Value T).try_set_value x = Value.Custom v ∧
    (Value.Custom v : Value T).get_value = v :=
  ⟨rfl, rfl, rfl, rfl, rfl⟩

/-- The element returned by minByKeyFirst splits the list into a strictly
larger prefix and a no-smaller suffix. -/
lemma minByKeyFirst_spec {α : Type} (key : α → Nat) :
    ∀ (l : List α) (a : α), minByKeyFirst key l = some a →
    ∃ l₁ l₂, l = l₁ ++ a :: l₂ ∧ (∀ b ∈ l₁, key a < key b) ∧ (∀ b ∈ l₂, key a ≤ key b) := by
  have main : ∀ (rest : List α) (x a : α),
      rest.foldl (fun acc b => if key b < key acc then b else acc) x = a →
      ∃ l₁ l₂, x :: rest = l₁ ++ a :: l₂ ∧ (∀ b ∈ l₁, key a < key b) ∧
        (∀ b ∈ l₂, key a ≤ key b) := by
    intro rest
    induction rest with
    | nil =>
      intro x a h
      simp only [List.foldl_nil] at h
      subst h
      exact ⟨[], [], rfl, by simp, by simp⟩
    | cons b rest ih =>
      intro x a h
      simp only [List.foldl_cons] at h
      by_cases hb : key b < key x
      · rw [if_pos hb] at h
        obtain ⟨l₁, l₂, hsplit, hlt, hle⟩ := ih b a h
        have hax : key a ≤ key b := by
          have hmem : b ∈ b :: rest := List.mem_cons_self _ _
          rw [hsplit] at hmem
          rcases List.mem_append.mp hmem with hmem | hmem
          · have := hlt b hmem
            omega
          · rcases List.mem_cons.mp hmem with heq | hmem
            · rw [heq]
            · exact hle b hmem
        refine ⟨x :: l₁, l₂, ?_, ?_, hle⟩
        · rw [List.cons_append, hsplit]
        · intro c hc
          rcases List.mem_cons.mp hc with rfl | hc
          · omega
          · exact hlt c hc
      · rw [if_neg hb] at h
        obtain ⟨l₁, l₂, hsplit, hlt, hle⟩ := ih x a h
        cases l₁ with
        | nil =>
          simp only [List.nil_append, List.cons.injEq] at hsplit
          obtain ⟨rfl, rfl⟩ := hsplit
          refine ⟨[], b :: rest, rfl, by simp, ?_⟩
          intro c hc
          rcases List.mem_cons.mp hc with rfl | hc
          · omega
          · exact hle c hc
        | cons x0 l₁ =>
          simp only [List.cons_append, List.cons.injEq] at hsplit
          obtain ⟨rfl, hrest⟩ := hsplit
          refine ⟨x :: b :: l₁, l₂, ?_, ?_, hle⟩
          · rw [hrest]
            rfl
          · intro c hc
            have hkx : key a < key x := hlt x (List.mem_cons_self _ _)
            rcases List.mem_cons.mp hc with rfl | hc
            · exact hkx
            · rcases List.mem_cons.mp hc with rfl | hc
              · omega
              · exact hlt c (List.mem_cons_of_mem _ hc)
  intro l a h
  cases l with
  | nil => simp [minByKeyFirst] at h
  | cons x rest =>
    simp only [minByKeyFirst, Option.some.injEq] at h
    exact main rest x a h

lemma mem_enum_getD {l : List CompData} {j : Nat} (h : j < l.length) :
    (j, l.getD j ⟨0, 0⟩) ∈ l.enum := by
  rw [List.mk_mem_enum_iff_getElem?]
  rw [List.getElem?_eq_getElem h]
  rw [List.getD_eq_getElem?_getD, List.getElem?_eq_getElem h]
  rfl

lemma enum_mem_inv {l : List CompData} {p : Nat × CompData} (h : p ∈ l.enum) :
    p.1 < l.length ∧ p.2 = l.getD p.1 ⟨0, 0⟩ := by
  rcases p with ⟨i, a⟩
  rw [List.mk_mem_enum_iff_getElem?] at h
  have hlt : i < l.length := by
    by_contra hge
    rw [List.getElem?_eq_none (by omega)] at h
    exact absurd h (by simp)
  refine ⟨hlt, ?_⟩
  rw [List.getD_eq_getElem?_getD, h]
  rfl

lemma enum_filter_pairwise (l : List CompData) (p : Nat × CompData → Bool) :
    ((l.enum).filter p).Pairwise (fun q r => q.1 < r.1) := by
  apply List.Pairwise.filter
  have h1 : (l.enum.map Prod.fst) = List.range l.length := List.enum_map_fst l
  have h2 : List.Pairwise (· < ·) (List.range l.length) := List.pairwise_lt_range _
  rw [← h1] at h2
  exact (List.pairwise_map).mp h2

lemma closest_component_none {components : List CompData} {current_index : Nat}
    {direction : Direction}
    (h : minByKeyFirst (fun p => manhattan (components.getD current_index ⟨0, 0⟩) p.2)
      ((components.enum).filter
        (fun p => dirPred direction (components.getD current_index ⟨0, 0⟩) p.2)) = none) :
    closest_component components current_index direction = current_index := by
  unfold closest_component
  rw [h]

lemma closest_component_some {components : List CompData} {current_index : Nat}
    {direction : Direction} {a : Nat × CompData}
    (h : minByKeyFirst (fun p => manhattan (components.getD current_index ⟨0, 0⟩) p.2)
      ((components.enum).filter
        (fun p => dirPred direction (components.getD current_index ⟨0, 0⟩) p.2)) = some a) :
    closest_component components current_index direction = a.1 := by
  unfold closest_component
  rw [h]

/-- The winning candidate is a candidate, has minimal Manhattan distance, and
among equally distant candidates has the smallest sibling index. -/
lemma closest_component_core {components : List CompData} {cur : CompData}
    {direction : Direction} {a : Nat × CompData}
    (hmin : minByKeyFirst (fun p => manhattan cur p.2)
      ((components.enum).filter (fun p => dirPred direction cur p.2)) = some a) :
    (a.1 < components.length ∧ dirPred direction cur (components.getD a.1 ⟨0, 0⟩) = true) ∧
    ∀ j, j < components.length → dirPred direction cur (components.getD j ⟨0, 0⟩) = true →
      manhattan cur (components.getD a.1 ⟨0, 0⟩) ≤ manhattan cur (components.getD j ⟨0, 0⟩) ∧
      (manhattan cur (components.getD j ⟨0, 0⟩) = manhattan cur (components.getD a.1 ⟨0, 0⟩) →
        a.1 ≤ j) := by
  obtain ⟨l₁, l₂, hsplit, hlt, hle⟩ := minByKeyFirst_spec _ _ _ hmin
  have hmem : a ∈ (components.enum).filter (fun p => dirPred direction cur p.2) := by
    rw [hsplit]
    exact List.mem_append_right _ (List.mem_cons_self _ _)
  have hmf := List.mem_filter.mp hmem
  obtain ⟨hlen, hval⟩ := enum_mem_inv hmf.1
  have hpred : dirPred direction cur (components.getD a.1 ⟨0, 0⟩) = true := by
    rw [← hval]
    exact hmf.2
  refine ⟨⟨hlen, hpred⟩, ?_⟩
  intro j hj hjp
  have hjmem : (j, components.getD j ⟨0, 0⟩) ∈
      (components.enum).filter (fun p => dirPred direction cur p.2) :=
    List.mem_filter.mpr ⟨mem_enum_getD hj, hjp⟩
  rw [hsplit] at hjmem
  rcases List.mem_append.mp hjmem with hmem1 | hmem2
  · have hstrict : manhattan cur a.2 < manhattan cur (components.getD j ⟨0, 0⟩) :=
      hlt (j, components.getD j ⟨0, 0⟩) hmem1
    rw [hval] at hstrict
    exact ⟨le_of_lt hstrict, fun heq => absurd heq (by omega)⟩
  · rcases List.mem_cons.mp hmem2 with heq | hmem2
    · have hj1 : j = a.1 := congrArg Prod.fst heq
      constructor
      · rw [hj1]
      · intro _
        omega
    · have hge : manhattan cur a.2 ≤ manhattan cur (components.getD j ⟨0, 0⟩) :=
        hle (j, components.getD j ⟨0, 0⟩) hmem2
      rw [hval] at hge
      refine ⟨hge, ?_⟩
      intro _
      have hpw := enum_filter_pairwise components (fun p => dirPred direction cur p.2)
      rw [hsplit] at hpw
      have hsuf : (a :: l₂).Pairwise (fun q r => q.1 < r.1) :=
        ((List.pairwise_append.mp hpw).2).1
      have := (List.pairwise_cons.mp hsuf).1 _ hmem2
      exact le_of_lt this

/-- C3: closest_component keeps only siblings strictly beyond the current
widget on the requested axis and aligned on the perpendicular axis, picks the
candidate with minimal Manhattan distance (first such candidate in sibling
order on ties), returns the current index when no candidate exists, and in
particular moves Down from (0,0) among (0,0),(0,1),(0,2),(1,0) to index 1,
never to the off-axis index 3. -/
theorem c3_closest_component_spec (components : List CompData) (current_index : Nat)
    (direction : Direction) (h : current_index < components.length) :
    (((¬∃ j, isCandidate components (components.getD current_index ⟨0, 0⟩) direction j) →
        closest_component components current_index direction = current_index) ∧
      ((∃ j, isCandidate components (components.getD current_index ⟨0, 0⟩) direction j) →
        isCandidate components (components.getD current_index ⟨0, 0⟩) direction
          (closest_component components current_index direction) ∧
        ∀ j, isCandidate components (components.getD current_index ⟨0, 0⟩) direction j →
          manhattan (components.getD current_index ⟨0, 0⟩)
              (components.getD (closest_component components current_index direction) ⟨0, 0⟩) ≤
            manhattan (components.getD current_index ⟨0, 0⟩) (components.getD j ⟨0, 0⟩) ∧
          (manhattan (components.getD current_index ⟨0, 0⟩) (components.getD j ⟨0, 0⟩) =
              manhattan (components.getD current_index ⟨0, 0⟩)
                (components.getD (closest_component components current_index direction) ⟨0, 0⟩) →
            closest_component components current_index direction ≤ j))) ∧
    closest_component [⟨0, 0⟩, ⟨0, 1⟩, ⟨0, 2⟩, ⟨1, 0⟩] 0 Direction.Down = 1 ∧
    closest_component [⟨0, 0⟩, ⟨0, 1⟩, ⟨0, 2⟩, ⟨1, 0⟩] 0 Direction.Down ≠ 3 := by
  refine ⟨⟨?_, ?_⟩, by decide, by decide⟩
  · intro hno
    cases hmin : minByKeyFirst
        (fun p => manhattan (components.getD current_index ⟨0, 0⟩) p.2)
        ((components.enum).filter
          (fun p => dirPred direction (components.getD current_index ⟨0, 0⟩) p.2)) with
    | none => exact closest_component_none hmin
    | some a =>
      exfalso
      have hcore := closest_component_core hmin
      exact hno ⟨a.1, hcore.1.1, hcore.1.2⟩
  · intro hex
    cases hmin : minByKeyFirst
        (fun p => manhattan (components.getD current_index ⟨0, 0⟩) p.2)
        ((components.enum).filter
          (fun p => dirPred direction (components.getD current_index ⟨0, 0⟩) p.2)) with
    | none =>
      exfalso
      obtain ⟨j, hj1, hj2⟩ := hex
      have hjmem : (j, components.getD j ⟨0, 0⟩) ∈
          (components.enum).filter
            (fun p => dirPred direction (components.getD current_index ⟨0, 0⟩) p.2) :=
        List.mem_filter.mpr ⟨mem_enum_getD hj1, hj2⟩
      cases hcs : (components.enum).filter
          (fun p => dirPred direction (components.getD current_index ⟨0, 0⟩) p.2) with
      | nil =>
        rw [hcs] at hjmem
        exact absurd hjmem (by simp)
      | cons q qs =>
        rw [hcs] at hmin
        simp [minByKeyFirst] at hmin
    | some a =>
      have hcore := closest_component_core hmin
      rw [closest_component_some hmin]
      exact ⟨⟨hcore.1.1, hcore.1.2⟩, fun j hj => hcore.2 j hj.1 hj.2⟩

/-- C3 witness: a concrete in-bounds navigation exercising both the
no-candidate branch and the minimal-candidate branch. -/
theorem c3_witness :
    (0 < ([⟨0, 0⟩, ⟨0, 1⟩, ⟨0, 2⟩, ⟨1, 0⟩] : List CompData).length) ∧
    closest_component [⟨0, 0⟩, ⟨0, 1⟩, ⟨0, 2⟩, ⟨1, 0⟩] 0 Direction.Down = 1 ∧
    closest_component [⟨0, 0⟩, ⟨0, 1⟩, ⟨0, 2⟩, ⟨1, 0⟩] 0 Direction.Left = 0 := by
  refine ⟨by decide,
    (c3_closest_component_spec [⟨0, 0⟩, ⟨0, 1⟩, ⟨0, 2⟩, ⟨1, 0⟩] 0 Direction.Down
      (by decide)).2.1, ?_⟩
  apply (c3_closest_component_spec [⟨0, 0⟩, ⟨0, 1⟩, ⟨0, 2⟩, ⟨1, 0⟩] 0 Direction.Left
    (by decide)).1.1
  rintro ⟨j, hj1, hj2⟩
  have hj4 : j < 4 := by simpa using hj1
  interval_cases j <;> exact absurd hj2 (by decide)

/-- C1: on any interleaving of well-formed ANSI escape sequences and visible
characters, compress_string returns exactly the visible characters together
with a map from visible-character index to the escape run immediately
preceding it, and replaying each recorded run just before its recorded offset
reconstructs the original string exactly. -/
theorem c1_compress_round_trip (ts : List Tok) (h : ∀ t ∈ ts, wfTok t = true) :
    (compress_string (renderToks ts)).1 = visChars ts ∧
    decompress (compress_string (renderToks ts)).1 (compress_string (renderToks ts)).2 =
      renderToks ts :=
  ⟨compress_fst_tokens ts h, compress_decompress (renderToks ts)⟩

/-- C1 witness: a concrete interleaving with a leading escape, adjacent
escapes forming a run, and a trailing escape. -/
theorem c1_witness :
    (∀ t ∈ ([Tok.seq ['3', '1'] 'm', Tok.vis 'H', Tok.vis 'i', Tok.seq [] 'm',
        Tok.seq ['0'] 'm', Tok.vis '!', Tok.seq ['4'] 'm'] : List Tok), wfTok t = true) ∧
    (compress_string (renderToks [Tok.seq ['3', '1'] 'm', Tok.vis 'H', Tok.vis 'i',
        Tok.seq [] 'm', Tok.seq ['0'] 'm', Tok.vis '!', Tok.seq ['4'] 'm'])).1 =
      ['H', 'i', '!'] ∧
    decompress
      (compress_string (renderToks [Tok.seq ['3', '1'] 'm', Tok.vis 'H', Tok.vis 'i',
        Tok.seq [] 'm', Tok.seq ['0'] 'm', Tok.vis '!', Tok.seq ['4'] 'm'])).1
      (compress_string (renderToks [Tok.seq ['3', '1'] 'm', Tok.vis 'H', Tok.vis 'i',
        Tok.seq [] 'm', Tok.seq ['0'] 'm', Tok.vis '!', Tok.seq ['4'] 'm'])).2 =
      renderToks [Tok.seq ['3', '1'] 'm', Tok.vis 'H', Tok.vis 'i', Tok.seq [] 'm',
        Tok.seq ['0'] 'm', Tok.vis '!', Tok.seq ['4'] 'm'] := by
  refine ⟨by decide, ?_, (c1_compress_round_trip _ (by decide)).2⟩
  have h1 := (c1_compress_round_trip [Tok.seq ['3', '1'] 'm', Tok.vis 'H', Tok.vis 'i',
    Tok.seq [] 'm', Tok.seq ['0'] 'm', Tok.vis '!', Tok.seq ['4'] 'm'] (by decide)).1
  rw [h1]
  rfl

/-- C8: every field family is resolved independently — the state layer wins
exactly when it is set, the Idle state uses base fields only, unset colors and
fonts contribute the empty string, and every write function appends the reset
sequence after the payload. -/
theorem c8_style_resolution (s : Style) (t : String) :
    (s.is_active = true →
      s.get = (resolveColor s.fg s.hover_fg).ansi ++ (resolveColor s.bg s.hover_bg).ansi_bg ++
        (resolveFont s.font s.hover_font).ansi ∧
      s.get_outline = (resolveColor s.outline s.hover_outline).ansi ∧
      s.get_cursor = (resolveColor s.cursor_fg s.hover_cursor_fg).ansi ++
        (resolveColor s.cursor_bg s.hover_cursor_bg).ansi_bg) ∧
    (s.is_active = false →
      s.get = s.fg.ansi ++ s.bg.ansi_bg ++ s.font.ansi ∧
      s.get_outline = s.outline.ansi ∧
      s.get_cursor = s.cursor_fg.ansi ++ s.cursor_bg.ansi_bg) ∧
    s.get_clicked = (resolveColor s.fg s.clicked_fg).ansi ++
      (resolveColor s.bg s.clicked_bg).ansi_bg ++ (resolveFont s.font s.clicked_font).ansi ∧
    s.get_selected = (resolveColor s.fg s.selected_fg).ansi ++
      (resolveColor s.bg s.selected_bg).ansi_bg ++ (resolveFont s.font s.selected_font).ansi ∧
    Color.None.ansi = "" ∧ Color.None.ansi_bg = "" ∧ Font.None.ansi = "" ∧
    s.write t = s.get ++ t ++ resetSeq ∧
    s.write_outline t = s.get_outline ++ t ++ resetSeq ∧
    s.write_clicked t = s.get_clicked ++ t ++ resetSeq ∧
    s.write_selected t = s.get_selected ++ t ++ resetSeq ∧
    s.write_cursor t = s.get_cursor ++ t ++ resetSeq := by
  have hc : ∀ b l : Color, Color.prioritize b l = resolveColor b l := fun _ _ => rfl
  have hfo : ∀ b l : Font, Font.prioritize b l = resolveFont b l := fun _ _ => rfl
  refine ⟨?_, ?_, ?_, ?_, rfl, rfl, ?_, rfl, rfl, rfl, rfl, rfl⟩
  · intro ha
    refine ⟨?_, ?_, ?_⟩ <;> simp [Style.get, Style.get_outline, Style.get_cursor, ha, hc, hfo]
  · intro ha
    refine ⟨?_, ?_, ?_⟩ <;> simp [Style.get, Style.get_outline, Style.get_cursor, ha]
  · simp [Style.get_clicked, hc, hfo]
  · simp [Style.get_selected, hc, hfo]
  · rw [Font.ansi]

/-- C8 witness: the hovered foreground override resolves to red while unset
families contribute nothing, and write appends the reset sequence. -/
theorem c8_witness :
    exampleStyle.is_active = true ∧
    exampleStyle.get = "\x1b[31m" ∧
    exampleStyle.write "?" = exampleStyle.get ++ "?" ++ resetSeq := by
  have h := c8_style_resolution exampleStyle "?"
  refine ⟨rfl, ?_, (h.2.2.2.2.2.2.2.1 : _)⟩
  have h1 := (h.1 rfl).1
  rw [h1]
  rfl

/-- C9: dispatching Enter to an idle non-toggle button returns the scheduled
tick sequence without changing the button or invoking the callback; tick 0
enters the Clicked state and invokes the callback once; tick 1 reverts to
Idle and invokes it a second time; ticks beyond index 1 change nothing, so
Idle is terminal. -/
theorem c9_button_state_machine (c : BtnComponent) (h1 : c.toggle = false)
    (h2 : c.clicked = false) (h3 : c.binds = button_binds) :
    button_update c ⟨KeyKind.Enter⟩ = (c, UpdateResponse.Tick [1, 100]) ∧
    (button_tick c 0).clicked = true ∧
    (button_tick c 0).callCount = c.callCount + 1 ∧
    (button_tick (button_tick c 0) 1).clicked = false ∧
    (button_tick (button_tick c 0) 1).callCount = c.callCount + 2 ∧
    ∀ (d : BtnComponent) (i : Nat), 2 ≤ i → button_tick d i = d := by
  refine ⟨?_, ?_, ?_, ?_, ?_, ?_⟩
  · simp [button_update, h3, lookupBind, button_binds, h1]
  · simp [button_tick]
  · simp [button_tick]
  · simp [button_tick]
  · simp [button_tick]
  · intro d i hi
    unfold button_tick
    rw [if_neg (by omega), if_neg (by omega)]

/-- C9 witness: the concrete idle button schedules [1, 100] on Enter and has
been called twice after the two scheduled ticks. -/
theorem c9_witness :
    exampleButton.toggle = false ∧ exampleButton.clicked = false ∧
    exampleButton.binds = button_binds ∧
    button_update exampleButton ⟨KeyKind.Enter⟩ = (exampleButton, UpdateResponse.Tick [1, 100]) ∧
    (button_tick (button_tick exampleButton 0) 1).callCount = 2 := by
  refine ⟨rfl, rfl, rfl, (c9_button_state_machine exampleButton rfl rfl rfl).1, ?_⟩
  have h := (c9_button_state_machine exampleButton rfl rfl rfl).2.2.2.2.1
  simpa using h

lemma pfLen_take {rest : List Char} {k : Nat} (h : pfLen rest = some k) :
    ∃ ps f, rest.take k = ps ++ [f] ∧ ps.all isParamChar = true ∧ isFinalChar f = true := by
  induction rest generalizing k with
  | nil => simp [pfLen] at h
  | cons c cs ih =>
    simp only [pfLen] at h
    by_cases hp : isParamChar c
    · simp only [hp, if_true, Option.map_eq_some'] at h
      obtain ⟨k0, hk0, rfl⟩ := h
      obtain ⟨ps, f, hps, hall, hf⟩ := ih hk0
      refine ⟨c :: ps, f, ?_, ?_, hf⟩
      · rw [List.take_succ_cons, hps]
        rfl
      · simp [hall, hp]
    · by_cases hf : isFinalChar c
      · simp [hp, hf] at h
        subst h
        exact ⟨[], c, rfl, by simp, hf⟩
      · simp [hp, hf] at h

lemma escSeqLen_take_valid {l : List Char} {m : Nat} (h : escSeqLen l = some m) :
    ValidSeq (l.take m) := by
  match l with
  | [] => simp [escSeqLen] at h
  | [c] => simp [escSeqLen] at h
  | e :: b :: rest =>
    simp only [escSeqLen] at h
    by_cases he : e = escChar ∧ b = '['
    · simp [he] at h
      obtain ⟨k, hk, rfl⟩ := h
      obtain ⟨ps, f, htake, hall, hf⟩ := pfLen_take hk
      refine ⟨ps, f, ?_, hall, hf⟩
      rw [show k + 2 = (k + 1) + 1 from rfl, List.take_succ_cons, List.take_succ_cons, htake]
      rw [he.1, he.2]
      rfl
    · simp [he] at h

lemma escRun_take_valid {l : List Char} {n : Nat} (h : escRun l = some n) :
    ValidRun (l.take n) := by
  suffices H : ∀ f l, List.length l ≤ f → ∀ n, escRun l = some n → ValidRun (l.take n) by
    exact H l.length l (Nat.le_refl _) n h
  intro f
  induction f with
  | zero =>
    intro l hl n h
    have : l = [] := List.length_eq_zero.mp (Nat.le_zero.mp hl)
    subst this
    rw [escRun_nil] at h
    exact absurd h (by simp)
  | succ g ih =>
    intro l hl n h
    rw [escRun_eq l] at h
    cases hseq : escSeqLen l with
    | none => simp [hseq] at h
    | some m =>
      have hb := escSeqLen_bounds hseq
      simp only [hseq, Option.some.injEq] at h
      cases hrest : escRun (l.drop m) with
      | none =>
        simp [hrest] at h
        subst h
        exact ⟨[l.take m], by simp, by simp, by
          intro s hs
          rw [List.mem_singleton] at hs
          subst hs
          exact escSeqLen_take_valid hseq⟩
      | some r =>
        have hd : (l.drop m).length ≤ g := by simp; omega
        obtain ⟨ss, hne, heq, hval⟩ := ih (l.drop m) hd r hrest
        simp only [hrest, Option.getD_some] at h
        refine ⟨l.take m :: ss, by simp, ?_, ?_⟩
        · rw [List.flatten_cons, ← heq, ← h, List.take_add]
        · intro s hs
          rcases List.mem_cons.mp hs with rfl | hs
          · exact escSeqLen_take_valid hseq
          · exact hval s hs

/-- Every escape run recorded by compress_string is a valid run. -/
lemma compress_map_valid {l : List Char} {k : Nat} {r : List Char}
    (h : lookupM (compress_string l).2 k = some r) : ValidRun r := by
  suffices H : ∀ f l, List.length l ≤ f → ∀ k r,
      lookupM (compress_string l).2 k = some r → ValidRun r by
    exact H l.length l (Nat.le_refl _) k r h
  intro f
  induction f with
  | zero =>
    intro l hl k r h
    have : l = [] := List.length_eq_zero.mp (Nat.le_zero.mp hl)
    subst this
    simp [compress_nil, lookupM] at h
  | succ g ih =>
    intro l hl k r h
    cases l with
    | nil => simp [compress_nil, lookupM] at h
    | cons c cs =>
      cases hrun : escRun (c :: cs) with
      | none =>
        rw [compress_vis hrun] at h
        cases k with
        | zero => rw [lookupM_shift_zero] at h; exact absurd h (by simp)
        | succ j =>
          rw [lookupM_shift_succ] at h
          exact ih cs (by simp at hl; omega) j r h
      | some n =>
        have hb := escRun_bounds hrun
        rw [compress_esc hrun] at h
        simp only [lookupM] at h
        by_cases hk : (0 : Nat) = k
        · rw [if_pos hk] at h
          simp only [Option.some.injEq] at h
          subst h
          exact escRun_take_valid hrun
        · rw [if_neg hk] at h
          exact ih ((c :: cs).drop n) (by simp at hl ⊢; omega) k r h

lemma validSeq_escSeqLen {s : List Char} (h : ValidSeq s) (t : List Char) :
    escSeqLen (s ++ t) = some s.length := by
  obtain ⟨ps, f, rfl, hall, hf⟩ := h
  rw [escSeqLen_tok hall hf, tok_render_length]

lemma validRun_escRun_aux (c : Char) (hc : c ≠ escChar) (t : List Char) :
    ∀ ss : List (List Char), ss ≠ [] → (∀ s ∈ ss, ValidSeq s) →
    escRun (ss.flatten ++ c :: t) = some ss.flatten.length := by
  intro ss
  induction ss with
  | nil => intro h _; exact absurd rfl h
  | cons s ss ih =>
    intro _ hval
    have hs := hval s (List.mem_cons_self _ _)
    rw [List.flatten_cons, List.append_assoc]
    rw [escRun_eq_some (validSeq_escSeqLen hs _)]
    rw [List.drop_left]
    cases ss with
    | nil =>
      rw [show ([] : List (List Char)).flatten ++ c :: t = c :: t by simp]
      rw [escRun_eq_none (escSeqLen_vis_head hc t)]
      simp
    | cons s2 ss2 =>
      rw [ih (by simp) (fun q hq => hval q (List.mem_cons_of_mem _ hq))]
      simp [Nat.add_comm]

lemma validRun_escRun {r : List Char} (h : ValidRun r) {c : Char} (hc : c ≠ escChar)
    (t : List Char) : escRun (r ++ c :: t) = some r.length := by
  obtain ⟨ss, hne, rfl, hval⟩ := h
  exact validRun_escRun_aux c hc t ss hne hval

/-- Recompressing a sequence of cells (a valid escape run or nothing, then one
non-ESC character each) yields exactly the cell characters. -/
lemma cells_recompress : ∀ cells : List (Option (List Char) × Char),
    (∀ p ∈ cells, p.2 ≠ escChar ∧ ∀ r, p.1 = some r → ValidRun r) →
    (compress_string ((cells.map cellRender).flatten)).1 = cells.map Prod.snd := by
  intro cells
  induction cells with
  | nil => intro _; rfl
  | cons p cells ih =>
    intro hok
    obtain ⟨o, c⟩ := p
    have hhd := hok (o, c) (List.mem_cons_self _ _)
    have hc : c ≠ escChar := hhd.1
    have hrest := fun q hq => hok q (List.mem_cons_of_mem _ hq)
    rw [List.map_cons, List.flatten_cons]
    cases o with
    | none =>
      rw [show cellRender (none, c) = [c] from rfl, List.singleton_append]
      rw [compress_vis (escRun_eq_none (escSeqLen_vis_head hc _))]
      rw [List.map_cons]
      simp only []
      rw [ih hrest]
    | some r =>
      have hvr : ValidRun r := hhd.2 r rfl
      rw [show cellRender (some r, c) = r ++ [c] from rfl, List.append_assoc,
        List.singleton_append]
      rw [compress_esc (validRun_escRun hvr hc _)]
      simp only []
      rw [List.drop_left]
      rw [compress_vis (escRun_eq_none (escSeqLen_vis_head hc _))]
      simp only [List.map_cons]
      rw [ih hrest]

/-- merge_line as a list of cells. -/
lemma merge_line_as_cells (frame line : List Char) (x : Nat) :
    merge_line frame line x =
      ((((List.range (visibleLen frame)).map (fun i =>
        mergeCellP (compress_string frame).1 (compress_string frame).2
          (line_with_break (compress_string line)) (compress_string line).2 x i)).map
        cellRender)).flatten := by
  unfold merge_line visibleLen
  rw [List.map_map]
  rfl

lemma getD_mem_char {l : List Char} {i : Nat} (h : i < l.length) (d : Char) :
    l.getD i d ∈ l := by
  rw [List.getD_eq_getElem l d h]
  exact List.getElem_mem h

/-- A character of the overlay used by the merge is a visible overlay
character or the line-break placeholder. -/
lemma mem_line_with_break {cl : List Char × List (Nat × List Char)} {j : Nat}
    (hj : j < (line_with_break cl).length) :
    (line_with_break cl).getD j ' ' ∈ cl.1 ∨ (line_with_break cl).getD j ' ' = '\n' := by
  have hmem := getD_mem_char hj ' '
  by_cases hsome : (lookupM cl.2 cl.1.length).isSome
  · rw [line_with_break, if_pos hsome] at hmem ⊢
    rcases List.mem_append.mp hmem with hm | hm
    · exact Or.inl hm
    · rw [List.mem_singleton] at hm
      exact Or.inr hm
  · rw [line_with_break, if_neg hsome] at hmem ⊢
    exact Or.inl hmem

/-- Under the no-stray-ESC hypotheses, every merge cell carries a non-ESC
character and a valid escape run. -/
lemma mergeCellP_ok {frame line : List Char} {x : Nat}
    (hf : escChar ∉ (compress_string frame).1) (hl : escChar ∉ (compress_string line).1)
    {i : Nat} (hi : i < visibleLen frame) :
    (mergeCellP (compress_string frame).1 (compress_string frame).2
      (line_with_break (compress_string line)) (compress_string line).2 x i).2 ≠ escChar ∧
    ∀ r, (mergeCellP (compress_string frame).1 (compress_string frame).2
      (line_with_break (compress_string line)) (compress_string line).2 x i).1 = some r →
      ValidRun r := by
  have hframe_char : (compress_string frame).1.getD i ' ' ≠ escChar := by
    intro hcontra
    apply hf
    rw [← hcontra]
    exact getD_mem_char hi ' '
  unfold mergeCellP
  split
  · rename_i hcond
    constructor
    · simp only []
      split
      · exact hframe_char
      · rename_i hnl
        intro hcontra
        rcases mem_line_with_break hcond.2.1 with hm | hm
        · apply hl
          rw [← hcontra]
          exact hm
        · exact hnl hm
    · intro r hr
      simp only [] at hr
      exact compress_map_valid hr
  · constructor
    · exact hframe_char
    · intro r hr
      simp only [] at hr
      exact compress_map_valid hr

/-- C10 counterexample: merging can splice frame and overlay characters into
a brand-new escape sequence, collapsing four visible characters to zero. -/
theorem c10_counterexample :
    visibleLen (merge_line [escChar, 'X', 'Y', 'Z'] ['[', '1', 'm'] 1) = 0 ∧
    visibleLen [escChar, 'X', 'Y', 'Z'] = 4 := by decide

/-- C10 (amended): when neither the frame's nor the overlay's visible
characters contain a stray ESC character, merge_line preserves the number of
visible characters of the frame; render_to_frame never changes the number of
rows of the frame. -/
theorem c10_geometry_amended (frame line : List Char) (x : Nat)
    (hf : escChar ∉ (compress_string frame).1)
    (hl : escChar ∉ (compress_string line).1) :
    visibleLen (merge_line frame line x) = visibleLen frame ∧
    ∀ (state : Nat) (fr : List (List Char)) (e : RElement),
      (render_to_frame state fr e).length = fr.length := by
  constructor
  · have hcells := merge_line_as_cells frame line x
    unfold visibleLen
    rw [hcells]
    rw [cells_recompress _ ?hok]
    case hok =>
      intro p hp
      obtain ⟨i, hi, rfl⟩ := List.mem_map.mp hp
      rw [List.mem_range] at hi
      exact mergeCellP_ok hf hl hi
    rw [List.length_map, List.length_map, List.length_range]
    rfl
  · intro state fr e
    exact rtfAux_length e.x e.y (splitNl (e.render state)) 0 fr

/-- C10 witness: a frame and an overlay with an escape run but no stray ESC
preserve the visible width, and a two-row frame keeps two rows. -/
theorem c10_witness :
    (escChar ∉ (compress_string ['A', 'B']).1) ∧
    (escChar ∉ (compress_string [escChar, '[', '1', 'm', 'Z']).1) ∧
    visibleLen (merge_line ['A', 'B'] [escChar, '[', '1', 'm', 'Z'] 0) = visibleLen ['A', 'B'] ∧
    (render_to_frame 0 [[' '], [' ']] ⟨0, 0, fun _ => ['A']⟩).length = 2 := by
  refine ⟨by decide, by decide,
    (c10_geometry_amended ['A', 'B'] [escChar, '[', '1', 'm', 'Z'] 0 (by decide) (by decide)).1,
    ?_⟩
  have h := (c10_geometry_amended ['A', 'B'] [escChar, '[', '1', 'm', 'Z'] 0 (by decide)
    (by decide)).2 0 [[' '], [' ']] ⟨0, 0, fun _ => ['A']⟩
  simpa using h

end Osui
